import Mathlib

/-!
Verification of the Briefly content annotation pipeline.

This file gives a shallow embedding, over `List Char`, of the highlight and
content-processing functions of the repository:

* `src/src/lib/highlightUtils.ts`: `extractTextSelection`,
  `applyHighlightsToContent`, `replaceTextAtOffset`,
  `removeHighlightFromContent`;
* `src/src/lib/htmlUtils.ts` and the enhanced variant bundled with
  `highlightUtils.ts`: `cleanHtmlContent` (its parse-error fallback branch) and
  `convertImageLinksToTags`;
* `src/src/lib/supabase.ts`: `createHighlight`.

JavaScript strings become `List Char`; `String.prototype.slice`, `trim` and
`indexOf` are embedded directly.  The DOM is embedded in two ways, matching how
the source touches it: functions that treat HTML as a raw string and only need
`textContent` of a parsed fragment use a tag-skipping flattening of the string
(`flattenText`, modelling `div.innerHTML = s; div.textContent` for markup
without entities or comments); functions that genuinely edit the parsed tree
(`removeHighlightFromContent`, `convertImageLinksToTags`) are embedded on a
first-child / next-sibling tree `HTree` standing for the parsed document, the
parse and serialise steps being the platform's.  External effects (the live
selection, the Supabase store) appear as explicit parameters.
-/

namespace Briefly

/-- Characters of a string literal; all embedded text is `List Char`. -/
def str (s : String) : List Char := s.toList

/-- The whitespace class trimmed by JavaScript `String.prototype.trim`: the
ECMA-262 WhiteSpace and LineTerminator productions — tab, line feed, vertical
tab, form feed, carriage return, space, no-break space U+00A0, Ogham space mark
U+1680, the U+2000..U+200A space separators, line separator U+2028, paragraph
separator U+2029, narrow no-break space U+202F, medium mathematical space
U+205F, ideographic space U+3000, and zero-width no-break space U+FEFF. -/
def isJsWs (c : Char) : Bool :=
  c.toNat == 0x09 || c.toNat == 0x0A || c.toNat == 0x0B || c.toNat == 0x0C ||
    c.toNat == 0x0D || c.toNat == 0x20 || c.toNat == 0xA0 || c.toNat == 0x1680 ||
    (0x2000 ≤ c.toNat && c.toNat ≤ 0x200A) || c.toNat == 0x2028 ||
    c.toNat == 0x2029 || c.toNat == 0x202F || c.toNat == 0x205F ||
    c.toNat == 0x3000 || c.toNat == 0xFEFF

/-- JavaScript `s.slice(a, b)` for nonnegative indices (clamped to bounds). -/
def jsSlice (s : List Char) (a b : Nat) : List Char := (s.take b).drop a

/-- Removes trailing JavaScript whitespace. -/
def dropTrailingWs (s : List Char) : List Char := (s.reverse.dropWhile isJsWs).reverse

/-- JavaScript `s.trim()`: strip leading and trailing whitespace. -/
def jsTrim (s : List Char) : List Char := dropTrailingWs (s.dropWhile isJsWs)

/-- Whether `hay` starts with `pat` (JavaScript `hay.startsWith(pat)`). -/
def listStartsWith : List Char → List Char → Bool
  | [], _ => true
  | _ :: _, [] => false
  | p :: ps, c :: cs => p == c && listStartsWith ps cs

/-- Helper for `jsIndexOf`: index of the first occurrence of `pat`, scanning `hay`. -/
def jsIndexOfAux (pat : List Char) : List Char → Option Nat
  | [] => if listStartsWith pat [] then some 0 else none
  | c :: t =>
      if listStartsWith pat (c :: t) then some 0
      else (jsIndexOfAux pat t).map (· + 1)

/-- JavaScript `hay.indexOf(pat)` as an `Option` (`none` for `-1`).
As in JavaScript, the empty pattern is found at index `0`. -/
def jsIndexOf (hay pat : List Char) : Option Nat := jsIndexOfAux pat hay

/-- Helper for `flattenText`; the `Bool` records whether the scan is inside a tag. -/
def flattenAux : Bool → List Char → List Char
  | _, [] => []
  | false, c :: rest => if c == '<' then flattenAux true rest else c :: flattenAux false rest
  | true, c :: rest => if c == '>' then flattenAux false rest else flattenAux true rest

/-- Flattened text of an HTML string: the concatenation of its text outside tags.
This embeds `tempDiv.innerHTML = htmlContent; tempDiv.textContent` as used by
`applyHighlightsToContent` and `replaceTextAtOffset`, for markup without
character entities or comments. -/
def flattenText (s : List Char) : List Char := flattenAux false s

/-- The transient selection value produced by `extractTextSelection`
(`boundingRect` is UI-only and omitted from the embedding). -/
structure TextSelection where
  text : List Char
  startOffset : Nat
  endOffset : Nat
  contextBefore : List Char
  contextAfter : List Char
deriving DecidableEq, Repr

/-- Embedding of `extractTextSelection` (src/src/lib/highlightUtils.ts:11).
The live DOM selection is modelled by explicit parameters: `hasSelection`,
`isCollapsed` and `rangeCount` stand for `window.getSelection()` being null,
collapsed, or empty of ranges; `inContainer` stands for
`container.contains(range.commonAncestorContainer)`; `txt` is the container's
flattened text (`container.textContent`); the selected range occupies
`[rawStart, rawStart + rawLen)` of `txt`, so that `selection.toString()`
is `txt.slice(rawStart, rawStart + rawLen)` and `beforeRange.toString().length`
is `rawStart` (both flattenings use the container's traversal order). -/
def extractTextSelection (hasSelection isCollapsed : Bool) (rangeCount : Nat)
    (inContainer : Bool) (txt : List Char) (rawStart rawLen : Nat) :
    Option TextSelection :=
  if !hasSelection || isCollapsed || rangeCount == 0 then none
  else if !inContainer then none
  else
    let selectedText := jsTrim (jsSlice txt rawStart (rawStart + rawLen))
    if selectedText.isEmpty || selectedText.length < 3 then none
    else
      let startOffset := rawStart
      let endOffset := startOffset + selectedText.length
      let contextLength := 50
      let contextBefore := jsSlice txt (startOffset - contextLength) startOffset
      let contextAfter := jsSlice txt endOffset (min txt.length (endOffset + contextLength))
      some ⟨selectedText, startOffset, endOffset, contextBefore, contextAfter⟩

/-- A persisted highlight record, with the fields `applyHighlightsToContent` reads. -/
structure Highlight where
  id : List Char
  start_offset : Nat
  end_offset : Nat
  highlighted_text : List Char
  color : List Char
deriving DecidableEq, Repr

/-- The descending comparison used by
`highlights.sort((a, b) => b.start_offset - a.start_offset)`. -/
def highlightDescOrder (a b : Highlight) : Prop := b.start_offset ≤ a.start_offset

instance : DecidableRel highlightDescOrder := fun a b => Nat.decLe _ _

instance : IsTotal Highlight highlightDescOrder :=
  ⟨fun a b => Nat.le_total b.start_offset a.start_offset⟩

instance : IsTrans Highlight highlightDescOrder :=
  ⟨fun _ _ _ hab hbc => Nat.le_trans hbc hab⟩

/-- The stable descending sort `[...highlights].sort((a, b) => b.start_offset - a.start_offset)`;
insertion sort is stable, like the JavaScript built-in. -/
def sortByStartDesc (hs : List Highlight) : List Highlight :=
  List.insertionSort highlightDescOrder hs

/-- The `highlightClass` template string built for a highlight's color. -/
def highlightClass (color : List Char) : List Char :=
  str "bg-" ++ color ++ str "-200 dark:bg-" ++ color ++ str "-800/30 rounded px-0.5"

/-- The `highlightHtml` marker markup built around the matched text. -/
def highlightHtml (h : Highlight) (highlightedText : List Char) : List Char :=
  str "<mark class=\"" ++ highlightClass h.color ++ str "\" data-highlight-id=\"" ++
    h.id ++ str "\">" ++ highlightedText ++ str "</mark>"

/-- Embedding of `replaceTextAtOffset` (src/src/lib/highlightUtils.ts:102):
flatten the current HTML string, slice `[startOffset, endOffset)` out of the
flattened text, and splice the replacement over the first occurrence of that
slice in the raw HTML string. -/
def replaceTextAtOffset (htmlContent : List Char) (startOffset endOffset : Nat)
    (replacement : List Char) : List Char :=
  let textContent := flattenText htmlContent
  let targetText := jsSlice textContent startOffset endOffset
  match jsIndexOf htmlContent targetText with
  | some i => htmlContent.take i ++ replacement ++ htmlContent.drop (i + targetText.length)
  | none => htmlContent

/-- One iteration of the `for (const highlight of sortedHighlights)` loop of
`applyHighlightsToContent`: `textContent` is the flattened text of the original
input, computed once before the loop. -/
def applyHighlightStep (textContent : List Char) (processed : List Char) (h : Highlight) :
    List Char :=
  let highlightedText := jsSlice textContent h.start_offset h.end_offset
  if highlightedText = h.highlighted_text then
    replaceTextAtOffset processed h.start_offset h.end_offset (highlightHtml h highlightedText)
  else processed

/-- Embedding of `applyHighlightsToContent` (src/src/lib/highlightUtils.ts:60). -/
def applyHighlightsToContent (htmlContent : List Char) (highlights : List Highlight) :
    List Char :=
  if highlights.isEmpty then htmlContent
  else
    (sortByStartDesc highlights).foldl (applyHighlightStep (flattenText htmlContent)) htmlContent

/-- Whether a highlight's stored text still matches the slice of the given
flattened text at its offsets: exactly the guard of `applyHighlightsToContent`;
a highlight failing it is skipped (stale). -/
def isFreshHighlight (textContent : List Char) (h : Highlight) : Bool :=
  decide (jsSlice textContent h.start_offset h.end_offset = h.highlighted_text)

/-- The ids of the highlights the renderer skips as stale, derived from the same
guard the code evaluates; the code logs nothing and returns only the HTML string. -/
def staleHighlightIds (htmlContent : List Char) (highlights : List Highlight) :
    List (List Char) :=
  ((sortByStartDesc highlights).filter
    (fun h => !(isFreshHighlight (flattenText htmlContent) h))).map (fun h => h.id)

/-- Helper for `findTextualOccur`; the `Bool` tracks being inside a tag, `i` the index. -/
def findTextualOccurAux (pat : List Char) : Bool → List Char → Nat → Option Nat
  | _, [], _ => none
  | false, c :: t, i =>
      if listStartsWith pat (c :: t) then some i
      else if c == '<' then findTextualOccurAux pat true t (i + 1)
      else findTextualOccurAux pat false t (i + 1)
  | true, c :: t, i =>
      if c == '>' then findTextualOccurAux pat false t (i + 1)
      else findTextualOccurAux pat true t (i + 1)

/-- Modelled from the spec wording of the Annotation Renderer: index of the first
occurrence of `pat` that starts at a textual (outside-tag) position of the HTML
string, for comparison with the code's raw `indexOf`. -/
def findTextualOccur (hay pat : List Char) : Option Nat := findTextualOccurAux pat false hay 0

/-- Modelled from the spec wording (claim C2): one renderer step that flattens the
current, possibly already annotated, HTML, slices it at the highlight's offsets,
and on a match wraps the first textual occurrence of the slice. -/
def applyClaimStep (processed : List Char) (h : Highlight) : List Char :=
  let textContent := flattenText processed
  let highlightedText := jsSlice textContent h.start_offset h.end_offset
  if highlightedText = h.highlighted_text then
    match findTextualOccur processed highlightedText with
    | some i =>
        processed.take i ++ highlightHtml h highlightedText ++
          processed.drop (i + highlightedText.length)
    | none => processed
  else processed

/-- Modelled from the spec wording (claim C2): the Annotation Renderer as the claim
describes it, to be compared with `applyHighlightsToContent`. -/
def applyHighlightsClaimed (htmlContent : List Char) (highlights : List Highlight) :
    List Char :=
  if highlights.isEmpty then htmlContent
  else (sortByStartDesc highlights).foldl applyClaimStep htmlContent

/-- The argument record of `createHighlight` (src/src/lib/supabase.ts:376). -/
structure HighlightData where
  storyId : List Char
  highlightedText : List Char
  startOffset : Nat
  endOffset : Nat
  contextBefore : Option (List Char)
  contextAfter : Option (List Char)
  color : Option (List Char)
deriving DecidableEq, Repr

/-- The row the code inserts into the `highlights` table (timestamps, which the
code fills from the clock, are omitted; the generated id is the store's). -/
structure HighlightRow where
  user_id : List Char
  story_id : List Char
  highlighted_text : List Char
  start_offset : Nat
  end_offset : Nat
  context_before : Option (List Char)
  context_after : Option (List Char)
  color : List Char
deriving DecidableEq, Repr

/-- The `Promise<{ highlight: Highlight | null; error?: string }>` shape returned
by `createHighlight`. -/
structure CreateHighlightResult where
  highlight : Option HighlightRow
  error : Option (List Char)
deriving DecidableEq, Repr

/-- JavaScript `s || dflt` for an optional string: the default is used when the
value is absent or the empty string (falsy). -/
def jsStrOr (s : Option (List Char)) (dflt : List Char) : List Char :=
  match s with
  | none => dflt
  | some c => if c.isEmpty then dflt else c

/-- Embedding of `createHighlight` (src/src/lib/supabase.ts:376).  The Supabase
insert is external I/O modelled by `storeError`: `none` means the insert
succeeded and returned the inserted row, `some msg` that the store reported an
error.  `userIdSet` models `this.userId` being set to a truthy value. -/
def createHighlight (userIdSet : Bool) (userId : List Char)
    (storeError : Option (List Char)) (d : HighlightData) : CreateHighlightResult :=
  if !userIdSet then ⟨none, some (str "User ID not set")⟩
  else
    let row : HighlightRow :=
      ⟨userId, d.storyId, d.highlightedText, d.startOffset, d.endOffset,
        d.contextBefore, d.contextAfter, jsStrOr d.color (str "yellow")⟩
    match storeError with
    | some msg => ⟨none, some msg⟩
    | none => ⟨some row, none⟩

/-- Case-insensitive `listStartsWith`, for the `/i` regex flag. -/
def startsWithCI : List Char → List Char → Bool
  | [], _ => true
  | _ :: _, [] => false
  | p :: ps, c :: cs => p.toLower == c.toLower && startsWithCI ps cs

/-- Consumes `[^>]*>` of the body-open tag: the input after its first `>`,
or `none` when no `>` follows. -/
def consumeTagEnd : List Char → Option (List Char)
  | [] => none
  | c :: t => if c == '>' then some t else consumeTagEnd t

/-- The lazy capture `([\s\S]*?)` up to the first `</body>` (case-insensitive),
or `none` when no close tag follows. -/
def captureUntilCloseCI : List Char → Option (List Char)
  | [] => none
  | c :: t =>
      if startsWithCI (str "</body>") (c :: t) then some []
      else (captureUntilCloseCI t).map (fun r => c :: r)

/-- Helper for `jsBodyMatch`: try the regex at each position, left to right. -/
def bodyMatchAux : List Char → Option (List Char)
  | [] => none
  | c :: t =>
      if startsWithCI (str "<body") (c :: t) then
        match consumeTagEnd ((c :: t).drop 5) with
        | some rest =>
            match captureUntilCloseCI rest with
            | some cap => some cap
            | none => bodyMatchAux t
        | none => bodyMatchAux t
      else bodyMatchAux t

/-- The capture group of `htmlContent.match(/<body[^>]*>([\s\S]*?)<\/body>/i)`. -/
def jsBodyMatch (raw : List Char) : Option (List Char) := bodyMatchAux raw

/-- Embedding of the `catch` branch of `cleanHtmlContent`
(src/src/lib/htmlUtils.ts:201, identical in both bundled variants): what the
Content Normalizer returns when parsing hits an unrecoverable error — the body
regex capture when it matches, otherwise the original raw content. -/
def cleanHtmlContentOnParseError (raw : List Char) : List Char :=
  match jsBodyMatch raw with
  | some inner => inner
  | none => raw

/-- A parsed HTML fragment in first-child / next-sibling form: `nil` is an empty
forest, `text s next` a text node, `elem tag attrs child next` an element whose
children form the forest `child`.  This stands for the document produced by
`DOMParser.parseFromString` in the tree-editing functions; parsing and
re-serialisation (`doc.body.innerHTML`) are the platform's. -/
inductive HTree where
  | nil : HTree
  | text (s : List Char) (next : HTree)
  | elem (tag : List Char) (attrs : List (List Char × List Char)) (child : HTree) (next : HTree)
deriving DecidableEq, Repr

/-- Document-order concatenation of the text nodes of a forest: `textContent`,
the flattened text of the parsed tree. -/
def treeText : HTree → List Char
  | .nil => []
  | .text s n => s ++ treeText n
  | .elem _ _ c n => treeText c ++ treeText n

/-- Value of an attribute on an attribute list, as `getAttribute` returns it. -/
def attrVal (attrs : List (List Char × List Char)) (name : List Char) : Option (List Char) :=
  (attrs.find? (fun p => decide (p.1 = name))).map Prod.snd

/-- The marker attribute name `data-highlight-id`. -/
def dhid : List Char := str "data-highlight-id"

/-- Number of elements of the forest (in document order, descendants included)
carrying `data-highlight-id` equal to the given id — the elements
`querySelectorAll('[data-highlight-id="id"]')` would return. -/
def markerCount (tid : List Char) : HTree → Nat
  | .nil => 0
  | .text _ n => markerCount tid n
  | .elem _ a c n =>
      (if attrVal a dhid = some tid then 1 else 0) + markerCount tid c + markerCount tid n

/-- Helper for `removeHighlightFromContent`: replaces the first (document-order)
element carrying the marker attribute by a text node holding its `textContent`;
the `Bool` reports whether one was found. -/
def removeFirstMarker (tid : List Char) : HTree → HTree × Bool
  | .nil => (.nil, false)
  | .text s n =>
      let r := removeFirstMarker tid n
      (.text s r.1, r.2)
  | .elem t a c n =>
      if attrVal a dhid = some tid then (.text (treeText (.elem t a c .nil)) n, true)
      else
        let rc := removeFirstMarker tid c
        if rc.2 then (.elem t a rc.1 n, true)
        else
          let rn := removeFirstMarker tid n
          (.elem t a rc.1 rn.1, rn.2)

/-- Embedding of `removeHighlightFromContent` (src/src/lib/highlightUtils.ts:129)
between parse and serialise: `doc.querySelector` finds the first marker with the
given id, and `replaceChild` swaps in a text node holding its text content; when
none exists the document is returned as parsed. -/
def removeHighlightFromContent (doc : HTree) (highlightId : List Char) : HTree :=
  (removeFirstMarker highlightId doc).1

/-- Lower-cased copy of a string, for JavaScript `toLowerCase`. -/
def lowerList (s : List Char) : List Char := s.map Char.toLower

/-- The image file extensions of the regex
`/\.(jpg|jpeg|png|gif|webp|svg|bmp|ico)(\?.*)?$/i`. -/
def imageExts : List (List Char) :=
  [str "jpg", str "jpeg", str "png", str "gif", str "webp", str "svg", str "bmp", str "ico"]

/-- After the extension the regex allows only the end of the string or a query
string starting with `?`. -/
def extTailOk (r : List Char) : Bool :=
  r.isEmpty || r.head? == some '?'

/-- Helper for `isImageLink`: scans the (already lower-cased) href for a
`.extension` occurrence followed by end-of-string or `?`. -/
def hasImageExtAux : List Char → Bool
  | [] => false
  | c :: t =>
      (c == '.' && imageExts.any (fun e => listStartsWith e t && extTailOk (t.drop e.length)))
        || hasImageExtAux t

/-- `imageExtensions.test(href)` of `convertImageLinksToTags`. -/
def isImageLink (href : List Char) : Bool := hasImageExtAux (lowerList href)

/-- JavaScript `hay.includes(pat)`. -/
def containsSubstr (hay pat : List Char) : Bool := (jsIndexOf hay pat).isSome

/-- JavaScript `href.split('/').pop()`: the segment after the last slash. -/
def lastSegmentAux (cur : List Char) : List Char → List Char
  | [] => cur.reverse
  | c :: t => if c == '/' then lastSegmentAux [] t else lastSegmentAux (c :: cur) t

/-- The last `/`-separated segment of a string. -/
def lastSegment (s : List Char) : List Char := lastSegmentAux [] s

/-- The `suggestsImage` test of `convertImageLinksToTags`: `linkText` is the
link's lower-cased text content. -/
def suggestsImage (linkText href : List Char) : Bool :=
  containsSubstr linkText (str "image") || containsSubstr linkText (str "photo") ||
    containsSubstr linkText (str "picture") || containsSubstr linkText (str "img") ||
    linkText == lowerList (lastSegment href)

/-- The guard `isImageLink || (suggestsImage && href.startsWith('http'))`;
`linkTxt` is the link's raw text content. -/
def shouldConvertLink (href linkTxt : List Char) : Bool :=
  isImageLink href ||
    (suggestsImage (lowerList linkTxt) href && listStartsWith (str "http") href)

/-- The figure the enhanced `convertImageLinksToTags` builds for a converted
anchor: an `img` (src, alt defaulting to `Image`, class `story-image`) followed,
when the link text is nonempty and differs from the URL, by a `figcaption`
holding that text. -/
def figureFor (href linkTxt : List Char) : HTree :=
  .elem (str "figure") [(str "class", str "story-image-wrapper")]
    (.elem (str "img")
      [(str "src", href),
        (str "alt", if linkTxt.isEmpty then str "Image" else linkTxt),
        (str "class", str "story-image")]
      .nil
      (if !linkTxt.isEmpty && linkTxt ≠ href then
        .elem (str "figcaption") [(str "class", str "story-image-caption")]
          (.text linkTxt .nil) .nil
      else .nil))
    .nil

/-- Embedding of the enhanced `convertImageLinksToTags`
(src/src/lib/highlightUtils.ts:339, the variant the spec's Normalizer step 6
describes) between parse and serialise: every anchor with an `href` whose target
or text indicates an image is replaced by `figureFor`; other nodes are kept and
their children traversed. -/
def convertImageLinksToTags : HTree → HTree
  | .nil => .nil
  | .text s n => .text s (convertImageLinksToTags n)
  | .elem tag a c n =>
      if tag = str "a" then
        match attrVal a (str "href") with
        | some href =>
            if shouldConvertLink href (treeText c) then
              match figureFor href (treeText c) with
              | .nil => convertImageLinksToTags n
              | .text s _ => .text s (convertImageLinksToTags n)
              | .elem ft fa fc _ => .elem ft fa fc (convertImageLinksToTags n)
            else .elem tag a (convertImageLinksToTags c) (convertImageLinksToTags n)
        | none => .elem tag a (convertImageLinksToTags c) (convertImageLinksToTags n)
      else .elem tag a (convertImageLinksToTags c) (convertImageLinksToTags n)

/-- Concrete HTML input whose flattened text `xy` also occurs inside a tag. -/
def cexHtml : List Char := str "<b id=\"xy\">xy</b>"

/-- Concrete highlight over the whole flattened text of `cexHtml`. -/
def cexHighlight : Highlight := ⟨str "h1", 0, 2, str "xy", str "yellow"⟩

/-- Concrete highlight whose stored text no longer matches the content. -/
def staleHighlight : Highlight := ⟨str "h1", 0, 3, str "xyz", str "yellow"⟩

/-- A parsed document with two sibling markers carrying the same highlight id. -/
def twoMarkersDoc : HTree :=
  .elem (str "mark") [(dhid, str "h1")] (.text (str "a") .nil)
    (.elem (str "mark") [(dhid, str "h1")] (.text (str "b") .nil) .nil)

/-- A parsed document with a single marker for id `h1`. -/
def oneMarkerDoc : HTree :=
  .elem (str "p") []
    (.elem (str "mark") [(dhid, str "h1")] (.text (str "ab") .nil) .nil) .nil

/-! ## Shared helper lemmas -/

theorem dropWhile_eq_drop_length (p : Char → Bool) : ∀ l : List Char,
    l.dropWhile p = l.drop (l.takeWhile p).length
  | [] => rfl
  | c :: t => by
      by_cases h : p c
      · simp [List.dropWhile_cons, List.takeWhile_cons, h, dropWhile_eq_drop_length p t]
      · simp [List.dropWhile_cons, List.takeWhile_cons, h]

theorem dropTrailingWs_eq_take (s : List Char) :
    ∃ n, n ≤ s.length ∧ dropTrailingWs s = s.take n := by
  unfold dropTrailingWs
  rw [dropWhile_eq_drop_length, List.reverse_drop]
  simp only [List.reverse_reverse, List.length_reverse]
  exact ⟨_, Nat.sub_le _ _, rfl⟩

theorem isEmpty_or_short_iff (l : List Char) :
    (l.isEmpty || decide (l.length < 3)) = true ↔ l.length ≤ 2 := by
  cases l <;> simp <;> omega

/-! ## C1: round-trip of selection extraction -/

/-- C1 (counterexample): a live selection with leading whitespace (raw selection
` cdef` at flattened positions `[2, 7)` of `ab cdef`) yields a `TextSelection`
whose offsets `[2, 6)` slice to ` cde`, not to its trimmed `text` field `cdef`;
the claimed round-trip fails exactly when leading whitespace is trimmed. -/
theorem extractTextSelection_roundtrip_fails_on_leading_ws :
    extractTextSelection true false 1 true (str "ab cdef") 2 5 =
      some ⟨str "cdef", 2, 6, str "ab", str "f"⟩ ∧
    jsSlice (str "ab cdef") 2 6 ≠ str "cdef" := by decide

/-- C1 (amended): whenever `extractTextSelection` returns a selection and the raw
selected text carries no leading whitespace, slicing the container's flattened
text at `[startOffset, endOffset)` reproduces the selection's `text` field
(trailing-whitespace trimming is harmless; leading whitespace breaks the
round-trip, as the counterexample shows). -/
theorem extractTextSelection_roundtrip_of_no_leading_ws (hasSel isColl : Bool)
    (rc : Nat) (inC : Bool) (txt : List Char) (a len : Nat) (sel : TextSelection)
    (hws : (jsSlice txt a (a + len)).dropWhile isJsWs = jsSlice txt a (a + len))
    (hx : extractTextSelection hasSel isColl rc inC txt a len = some sel) :
    jsSlice txt sel.startOffset sel.endOffset = sel.text := by
  unfold extractTextSelection at hx
  split at hx
  · exact absurd hx (by simp)
  · split at hx
    · exact absurd hx (by simp)
    · dsimp only at hx
      split at hx
      · exact absurd hx (by simp)
      · cases hx
        show jsSlice txt a (a + (jsTrim (jsSlice txt a (a + len))).length) =
          jsTrim (jsSlice txt a (a + len))
        have htrim : jsTrim (jsSlice txt a (a + len)) =
            dropTrailingWs (jsSlice txt a (a + len)) := by
          rw [jsTrim, hws]
        obtain ⟨n, hn, hdt⟩ := dropTrailingWs_eq_take (jsSlice txt a (a + len))
        rw [htrim, hdt]
        have hraw : jsSlice txt a (a + len) = (txt.drop a).take len := by
          rw [jsSlice, List.drop_take]
          simp
        have hlenraw : (jsSlice txt a (a + len)).length ≤ len := by
          rw [hraw, List.length_take]
          exact Nat.min_le_left _ _
        have hlen : ((jsSlice txt a (a + len)).take n).length = n := by
          rw [List.length_take]
          exact Nat.min_eq_left hn
        rw [hlen, jsSlice, List.drop_take]
        simp only [Nat.add_sub_cancel_left]
        rw [hraw, List.take_take]
        congr 1
        exact (Nat.min_eq_left (Nat.le_trans hn hlenraw)).symm

/-- C1 (witness): on `Hello world` with raw selection `world` at `[6, 11)`, the
returned offsets slice back to `world`. -/
theorem extractTextSelection_roundtrip_of_no_leading_ws_witness :
    jsSlice (str "Hello world") 6 11 = str "world" :=
  extractTextSelection_roundtrip_of_no_leading_ws true false 1 true
    (str "Hello world") 6 5 ⟨str "world", 6, 11, str "Hello ", str ""⟩
    (by decide) (by decide)

/-! ## C7: selection rejection -/

/-- C7: `extractTextSelection` returns nothing exactly when a precondition fails —
the selection is absent, collapsed or empty of ranges, its common ancestor lies
outside the container, or the trimmed selected text has length at most 2; a
`TextSelection` is returned exactly when all preconditions hold. -/
theorem extractTextSelection_rejection_iff (hasSel isColl : Bool) (rc : Nat)
    (inC : Bool) (txt : List Char) (a len : Nat) :
    extractTextSelection hasSel isColl rc inC txt a len = none ↔
      (hasSel = false ∨ isColl = true ∨ rc = 0 ∨ inC = false ∨
        (jsTrim (jsSlice txt a (a + len))).length ≤ 2) := by
  unfold extractTextSelection
  cases hasSel <;> cases isColl <;> cases inC <;>
    simp [← List.length_eq_zero] <;> omega

/-! ## C8: identity on the empty highlight list -/

/-- C8: applying an empty highlight list returns the HTML unchanged. -/
theorem applyHighlightsToContent_empty_identity (htmlContent : List Char) :
    applyHighlightsToContent htmlContent [] = htmlContent := rfl

/-! ## C2: the renderer's actual traversal and replacement -/

/-- C2 (counterexample): on `<b id="xy">xy</b>` with a fresh highlight over the
whole flattened text `xy`, the renderer as the claim describes it (wrap the
first textual occurrence against the current flattened text) differs from the
code, whose `indexOf` replacement lands on the `xy` inside the `id` attribute. -/
theorem applyHighlights_differs_from_claimed_algorithm :
    applyHighlightsToContent cexHtml [cexHighlight] ≠
      applyHighlightsClaimed cexHtml [cexHighlight] := by decide

/-- C2 (amended): the renderer processes the highlight list as a stable
descending-by-`start_offset` permutation (descending, not necessarily strictly,
when offsets tie), and each step slices the flattened text of the original
input — computed once before the loop, not of the current partially annotated
HTML — and on a match splices the marker over the first occurrence of the
current content's slice in the raw HTML string, textual or not
(`applyHighlightStep`, `replaceTextAtOffset`). -/
theorem applyHighlightsToContent_order_and_step (htmlContent : List Char)
    (hs : List Highlight) :
    List.Perm (sortByStartDesc hs) hs ∧
    List.Sorted highlightDescOrder (sortByStartDesc hs) ∧
    applyHighlightsToContent htmlContent hs =
      (sortByStartDesc hs).foldl (applyHighlightStep (flattenText htmlContent))
        htmlContent := by
  refine ⟨List.perm_insertionSort _ _, List.sorted_insertionSort _ _, ?_⟩
  cases hs with
  | nil => rfl
  | cons h t => rfl

/-! ## C4: marker insertion can corrupt the flattened text -/

/-- C4: on `<b id="xy">xy</b>` with the fresh highlight over `xy`, the code
splices the marker into the `id` attribute (the first raw-string occurrence of
the slice), and the flattened text of the output differs from the input's —
the renderer can silently corrupt the HTML. -/
theorem applyHighlights_corrupts_flattened_text :
    flattenText (applyHighlightsToContent cexHtml [cexHighlight]) ≠
      flattenText cexHtml := by decide

/-! ## C5: highlight creation performs no validation -/

/-- C5 (counterexample): `createHighlight` with an empty `highlightedText`
succeeds when the store accepts the insert — it returns the stored row and no
error, so no `ValidationError` guards empty text (nor malformed offsets: the
offsets are passed through unchecked). -/
theorem createHighlight_accepts_empty_text :
    createHighlight true (str "u1") none ⟨str "s1", str "", 0, 5, none, none, none⟩ =
      ⟨some ⟨str "u1", str "s1", str "", 0, 5, none, none, str "yellow"⟩, none⟩ := by
  decide

/-- C5 (amended): `createHighlight` validates nothing locally: it fails exactly
when the user id is unset or the backing store reports an error, its error never
depends on the submitted text or offsets, and it returns a highlight exactly
when it returns no error. -/
theorem createHighlight_error_characterization (u : Bool) (uid : List Char)
    (se : Option (List Char)) (d d2 : HighlightData) :
    ((createHighlight u uid se d).error = none ↔ (u = true ∧ se = none)) ∧
    ((createHighlight u uid se d).highlight.isSome ↔
      (createHighlight u uid se d).error = none) ∧
    (createHighlight u uid se d).error = (createHighlight u uid se d2).error := by
  cases u <;> cases se <;> simp [createHighlight]

/-! ## C6: the normalizer's parse-error fallback -/

/-- C6 (counterexample): on the non-empty raw content `<body></body>`, the
parse-error fallback returns the body capture — the empty string — rather than
the original content unchanged. -/
theorem cleanHtmlFallback_changes_content :
    cleanHtmlContentOnParseError (str "<body></body>") = str "" ∧
    str "<body></body>" ≠ str "" := by decide

/-! ## C3: stale highlights are skipped; no stale-id set is returned -/

/-- C3 (counterexample): a stale highlight is skipped, and the renderer's only
output — the HTML string — is identical to the output for the empty list, while
the stale-id sets of the two runs differ; the returned value therefore cannot
carry the set of stale highlight ids the claim says is returned (the code's
return type is the annotated string alone). -/
theorem applyHighlights_output_carries_no_stale_ids :
    applyHighlightsToContent (str "abc") [staleHighlight] =
      applyHighlightsToContent (str "abc") [] ∧
    staleHighlightIds (str "abc") [staleHighlight] ≠
      staleHighlightIds (str "abc") [] := by decide

theorem orderedInsert_of_forall (h : Highlight) (l : List Highlight)
    (hl : ∀ y ∈ l, highlightDescOrder h y) :
    List.orderedInsert highlightDescOrder h l = h :: l := by
  cases l with
  | nil => rfl
  | cons x xs => simp [List.orderedInsert, if_pos (hl x (by simp))]

theorem filter_orderedInsert_pos (p : Highlight → Bool) (h : Highlight)
    (l : List Highlight) (hp : p h = true)
    (hs : List.Sorted highlightDescOrder l) :
    (List.orderedInsert highlightDescOrder h l).filter p =
      List.orderedInsert highlightDescOrder h (l.filter p) := by
  induction l with
  | nil => simp [List.orderedInsert, hp]
  | cons x xs ih =>
      obtain ⟨hx, hxs⟩ := List.sorted_cons.mp hs
      by_cases hr : highlightDescOrder h x
      · rw [List.orderedInsert, if_pos hr]
        by_cases hpx : p x = true
        · simp [List.filter_cons, hp, hpx, List.orderedInsert, if_pos hr]
        · have hall : ∀ y ∈ xs.filter p, highlightDescOrder h y := by
            intro y hy
            exact Nat.le_trans (hx y (List.mem_of_mem_filter hy)) hr
          simp [List.filter_cons, hp, hpx, orderedInsert_of_forall h _ hall]
      · rw [List.orderedInsert, if_neg hr]
        by_cases hpx : p x = true
        · simp [List.filter_cons, hpx, ih hxs, List.orderedInsert, if_neg hr]
        · simp [List.filter_cons, hpx, ih hxs]

theorem filter_orderedInsert_neg (p : Highlight → Bool) (h : Highlight)
    (l : List Highlight) (hp : p h = false) :
    (List.orderedInsert highlightDescOrder h l).filter p = l.filter p := by
  induction l with
  | nil => simp [List.orderedInsert, hp]
  | cons x xs ih =>
      by_cases hr : highlightDescOrder h x
      · simp [List.orderedInsert, if_pos hr, List.filter_cons, hp]
      · simp [List.orderedInsert, if_neg hr, List.filter_cons, ih]

theorem filter_sortByStartDesc (p : Highlight → Bool) (hs : List Highlight) :
    (sortByStartDesc hs).filter p = sortByStartDesc (hs.filter p) := by
  induction hs with
  | nil => rfl
  | cons h t ih =>
      have e1 : sortByStartDesc (h :: t) =
          List.orderedInsert highlightDescOrder h (sortByStartDesc t) := rfl
      by_cases hp : p h = true
      · have e2 : sortByStartDesc ((h :: t).filter p) =
            List.orderedInsert highlightDescOrder h (sortByStartDesc (t.filter p)) := by
          rw [List.filter_cons, if_pos hp]
          exact rfl
        have hsorted : List.Sorted highlightDescOrder (sortByStartDesc t) :=
          List.sorted_insertionSort _ _
        rw [e1, e2, filter_orderedInsert_pos p h _ hp hsorted, ih]
      · have hp' : p h = false := by simpa using hp
        have e2 : (h :: t).filter p = t.filter p := by
          rw [List.filter_cons, hp']
          simp
        rw [e1, filter_orderedInsert_neg p h _ hp', ih, e2]

theorem foldl_filter_eq (f : List Char → Highlight → List Char)
    (p : Highlight → Bool) (hf : ∀ acc x, p x = false → f acc x = acc) :
    ∀ (l : List Highlight) (acc : List Char),
      l.foldl f acc = (l.filter p).foldl f acc
  | [], _ => rfl
  | x :: t, acc => by
      by_cases hp : p x = true
      · simp only [List.foldl_cons, List.filter_cons, if_pos hp]
        exact foldl_filter_eq f p hf t (f acc x)
      · have hx : p x = false := by simpa using hp
        simp only [List.foldl_cons, List.filter_cons, hx, Bool.false_eq_true,
          if_false, hf acc x hx]
        exact foldl_filter_eq f p hf t acc

/-- C3 (amended): every highlight whose slice of the (original) flattened text
differs from its stored text is skipped without altering the HTML: the render
result equals the render of the fresh highlights alone, and all remaining
highlights are still processed.  No stale-id set is part of the return value;
`staleHighlightIds` reconstructs from the same guard which ids were skipped. -/
theorem applyHighlightsToContent_skips_stale (htmlContent : List Char)
    (hs : List Highlight) :
    applyHighlightsToContent htmlContent hs =
      applyHighlightsToContent htmlContent
        (hs.filter (isFreshHighlight (flattenText htmlContent))) := by
  have hstep : ∀ acc x, isFreshHighlight (flattenText htmlContent) x = false →
      applyHighlightStep (flattenText htmlContent) acc x = acc := by
    intro acc x hx
    unfold applyHighlightStep
    rw [if_neg]
    intro hcontra
    rw [isFreshHighlight, hcontra] at hx
    simp at hx
  by_cases h1 : hs.isEmpty
  · have h1' : hs = [] := by simpa [List.isEmpty_iff] using h1
    subst h1'
    rfl
  · rw [applyHighlightsToContent, if_neg (by simpa using h1),
      foldl_filter_eq _ _ hstep, filter_sortByStartDesc]
    by_cases h2 : (hs.filter (isFreshHighlight (flattenText htmlContent))).isEmpty
    · have h2' : hs.filter (isFreshHighlight (flattenText htmlContent)) = [] := by
        simpa [List.isEmpty_iff] using h2
      rw [h2']
      rfl
    · rw [applyHighlightsToContent, if_neg (by simpa using h2)]

theorem consumeTagEnd_decomp : ∀ (l rest : List Char),
    consumeTagEnd l = some rest → ∃ u, l = u ++ rest := by
  intro l
  induction l with
  | nil => intro rest h; cases h
  | cons c t ih =>
      intro rest h
      unfold consumeTagEnd at h
      split at h
      · cases h
        exact ⟨[c], rfl⟩
      · obtain ⟨u, hu⟩ := ih rest h
        exact ⟨c :: u, by rw [hu]; rfl⟩

theorem captureUntilCloseCI_decomp : ∀ (l cap : List Char),
    captureUntilCloseCI l = some cap → ∃ rest, l = cap ++ rest := by
  intro l
  induction l with
  | nil => intro cap h; cases h
  | cons c t ih =>
      intro cap h
      unfold captureUntilCloseCI at h
      split at h
      · cases h
        exact ⟨c :: t, rfl⟩
      · obtain ⟨cap', hcap', hmap⟩ := Option.map_eq_some'.mp h
        obtain ⟨rest, hrest⟩ := ih cap' hcap'
        exact ⟨rest, by rw [← hmap, hrest]; rfl⟩

theorem bodyMatchAux_decomp : ∀ (l cap : List Char),
    bodyMatchAux l = some cap → ∃ pre post, l = pre ++ cap ++ post := by
  intro l
  induction l with
  | nil => intro cap h; cases h
  | cons c t ih =>
      intro cap h
      unfold bodyMatchAux at h
      by_cases hsw : startsWithCI (str "<body") (c :: t) = true
      · rw [if_pos hsw] at h
        cases hct : consumeTagEnd ((c :: t).drop 5) with
        | none =>
            rw [hct] at h
            obtain ⟨pre, post, hp⟩ := ih cap h
            exact ⟨c :: pre, post, by rw [hp]; rfl⟩
        | some rest =>
            rw [hct] at h
            dsimp only at h
            cases hcap : captureUntilCloseCI rest with
            | none =>
                rw [hcap] at h
                obtain ⟨pre, post, hp⟩ := ih cap h
                exact ⟨c :: pre, post, by rw [hp]; rfl⟩
            | some cap2 =>
                rw [hcap] at h
                have hcc : cap2 = cap := by
                  simpa using h
                subst hcc
                obtain ⟨u, hu⟩ := consumeTagEnd_decomp _ _ hct
                obtain ⟨r2, hr2⟩ := captureUntilCloseCI_decomp _ _ hcap
                refine ⟨(c :: t).take 5 ++ u, r2, ?_⟩
                conv_lhs => rw [← List.take_append_drop 5 (c :: t)]
                rw [hu, hr2]
                simp [List.append_assoc]
      · rw [if_neg hsw] at h
        obtain ⟨pre, post, hp⟩ := ih cap h
        exact ⟨c :: pre, post, by rw [hp]; rfl⟩

/-- C6 (amended): on an unrecoverable parse error `cleanHtmlContent` never
throws: it returns the body-regex capture — a contiguous substring of the raw
content, possibly empty and different from it — when the pattern matches, and
the original content unchanged otherwise. -/
theorem cleanHtmlFallback_returns_substring (raw : List Char) :
    ∃ pre post, raw = pre ++ cleanHtmlContentOnParseError raw ++ post := by
  unfold cleanHtmlContentOnParseError jsBodyMatch
  cases hbm : bodyMatchAux raw with
  | none => exact ⟨[], [], by simp⟩
  | some cap =>
      obtain ⟨pre, post, hp⟩ := bodyMatchAux_decomp raw cap hbm
      exact ⟨pre, post, hp⟩

/-! ## C9: image-link promotion -/

/-- C9: the enhanced `convertImageLinksToTags` turns the anchor
`<a href="https://x.com/img.png">photo</a>` into a figure wrapping an image
whose `src` is the URL and whose `alt` is `photo`, followed by a `figcaption`
reading `photo` — present because the link text differs from the URL. -/
theorem convertImageLinks_promotes_photo_anchor :
    convertImageLinksToTags
      (.elem (str "a") [(str "href", str "https://x.com/img.png")]
        (.text (str "photo") .nil) .nil) =
    .elem (str "figure") [(str "class", str "story-image-wrapper")]
      (.elem (str "img")
        [(str "src", str "https://x.com/img.png"), (str "alt", str "photo"),
          (str "class", str "story-image")] .nil
        (.elem (str "figcaption") [(str "class", str "story-image-caption")]
          (.text (str "photo") .nil) .nil))
      .nil := by decide

/-! ## C10: removing a highlight marker -/

/-- C10 (counterexample): when two sibling markers carry the same highlight id,
`removeHighlightFromContent` replaces only the first (as `querySelector` finds
one element), so the id still appears as a marker attribute afterwards. -/
theorem removeHighlight_duplicate_ids_persist :
    markerCount (str "h1") (removeHighlightFromContent twoMarkersDoc (str "h1")) ≠ 0 := by
  decide

theorem treeText_removeFirstMarker (tid : List Char) : ∀ t : HTree,
    treeText (removeFirstMarker tid t).1 = treeText t := by
  intro t
  induction t with
  | nil => rfl
  | text s n ihn => simp [removeFirstMarker, treeText, ihn]
  | elem tg a c n ihc ihn =>
      by_cases h : attrVal a dhid = some tid
      · simp [removeFirstMarker, treeText, h]
      · by_cases h2 : (removeFirstMarker tid c).2
        · simp [removeFirstMarker, treeText, h, h2, ihc]
        · simp [removeFirstMarker, treeText, h, h2, ihc, ihn]

theorem removeFirstMarker_not_found_eq (tid : List Char) : ∀ t : HTree,
    (removeFirstMarker tid t).2 = false → (removeFirstMarker tid t).1 = t := by
  intro t
  induction t with
  | nil => intro _; rfl
  | text s n ihn =>
      intro h
      simp only [removeFirstMarker] at h ⊢
      rw [ihn h]
  | elem tg a c n ihc ihn =>
      intro h
      by_cases ha : attrVal a dhid = some tid
      · simp [removeFirstMarker, ha] at h
      · by_cases h2 : (removeFirstMarker tid c).2
        · simp [removeFirstMarker, ha, h2] at h
        · simp only [removeFirstMarker, ha, if_false, h2] at h ⊢
          simp only [Bool.false_eq_true, if_false] at h ⊢
          rw [ihc (by simpa using h2), ihn h]

theorem removeFirstMarker_found_iff (tid : List Char) : ∀ t : HTree,
    (removeFirstMarker tid t).2 = true ↔ markerCount tid t ≠ 0 := by
  intro t
  induction t with
  | nil => simp [removeFirstMarker, markerCount]
  | text s n ihn => simp [removeFirstMarker, markerCount, ihn]
  | elem tg a c n ihc ihn =>
      by_cases ha : attrVal a dhid = some tid
      · simp [removeFirstMarker, markerCount, ha]
      · by_cases h2 : (removeFirstMarker tid c).2
        · have hc : markerCount tid c ≠ 0 := ihc.mp h2
          have e : (removeFirstMarker tid (.elem tg a c n)).2 = true := by
            simp [removeFirstMarker, ha, h2]
          rw [e]
          simp only [markerCount, if_neg ha]
          constructor
          · intro _
            omega
          · intro _
            trivial
        · have hc : markerCount tid c = 0 := by
            by_contra hcc
            exact h2 (ihc.mpr hcc)
          have e : (removeFirstMarker tid (.elem tg a c n)).2 =
              (removeFirstMarker tid n).2 := by
            simp [removeFirstMarker, ha, h2]
          rw [e, ihn]
          simp only [markerCount, if_neg ha, hc]
          omega

theorem markerCount_removeFirstMarker_of_le_one (tid : List Char) : ∀ t : HTree,
    markerCount tid t ≤ 1 → markerCount tid (removeFirstMarker tid t).1 = 0 := by
  intro t
  induction t with
  | nil => intro _; rfl
  | text s n ihn =>
      intro h
      simp only [markerCount] at h
      simp only [removeFirstMarker, markerCount]
      exact ihn h
  | elem tg a c n ihc ihn =>
      intro h
      simp only [markerCount] at h
      by_cases ha : attrVal a dhid = some tid
      · rw [if_pos ha] at h
        simp only [removeFirstMarker, ha, if_true, markerCount]
        have hn : markerCount tid n = 0 := by omega
        exact hn
      · rw [if_neg ha] at h
        by_cases h2 : (removeFirstMarker tid c).2
        · have hc : markerCount tid c ≠ 0 := (removeFirstMarker_found_iff tid c).mp h2
          simp only [removeFirstMarker, ha, if_false, h2, if_true, markerCount,
            if_neg ha]
          have hrc : markerCount tid (removeFirstMarker tid c).1 = 0 :=
            ihc (by omega)
          have hn : markerCount tid n = 0 := by omega
          omega
        · have hc : markerCount tid c = 0 := by
            by_contra hcc
            exact h2 ((removeFirstMarker_found_iff tid c).mpr hcc)
          simp only [removeFirstMarker, ha, if_false, h2, Bool.false_eq_true,
            markerCount, if_neg ha]
          have hrc : (removeFirstMarker tid c).1 = c :=
            removeFirstMarker_not_found_eq tid c (by simpa using h2)
          have hrn : markerCount tid (removeFirstMarker tid n).1 = 0 :=
            ihn (by omega)
          rw [hrc]
          omega

/-- C10 (amended): `removeHighlightFromContent` always preserves the flattened
text (the marker is replaced by a text node holding exactly its text content);
when at most one marker carries the id — the normal case — the id no longer
appears as a marker attribute afterwards; and when no marker carries it the
parsed document is returned unchanged.  With several markers sharing the id
only the first is removed (see the counterexample). -/
theorem removeHighlightFromContent_spec (doc : HTree) (highlightId : List Char) :
    treeText (removeHighlightFromContent doc highlightId) = treeText doc ∧
    (markerCount highlightId doc ≤ 1 →
      markerCount highlightId (removeHighlightFromContent doc highlightId) = 0) ∧
    (markerCount highlightId doc = 0 →
      removeHighlightFromContent doc highlightId = doc) := by
  refine ⟨treeText_removeFirstMarker highlightId doc, ?_, ?_⟩
  · exact markerCount_removeFirstMarker_of_le_one highlightId doc
  · intro h0
    apply removeFirstMarker_not_found_eq
    by_contra hf
    exact (removeFirstMarker_found_iff highlightId doc).mp (by simpa using hf) h0

/-- C10 (witness): on a document with a single `h1` marker, removal eliminates
the marker attribute and preserves the flattened text. -/
theorem removeHighlightFromContent_spec_witness :
    markerCount (str "h1") (removeHighlightFromContent oneMarkerDoc (str "h1")) = 0 ∧
    treeText (removeHighlightFromContent oneMarkerDoc (str "h1")) =
      treeText oneMarkerDoc :=
  ⟨(removeHighlightFromContent_spec oneMarkerDoc (str "h1")).2.1 (by decide),
    (removeHighlightFromContent_spec oneMarkerDoc (str "h1")).1⟩

end Briefly
